import Mathlib

/-!
Formal model of the Gaussian process regression engine in
src/gaussian_process.py, together with theorems settling the frozen
claims about it.

The kernel covariance function and the gradient-descent optimizer are
external collaborators of the engine (they live outside the module), so
they are abstracted as function parameters: a kernel is any function
producing a covariance matrix from inputs, and an optimizer step is any
function updating the trainable parameters from a minibatch.  Machine
floats are modelled by exact real arithmetic.
-/

namespace GaussProc

open Matrix

/-- Covariance matrix built at construction:
K = kernel.covariance(X) + square(noise) * diag(ones(N))
(from the expression assigned to self.K in GaussianProcess.init). -/
def Kmat {N : ℕ} (kc : Matrix (Fin N) (Fin N) ℝ) (noise : ℝ) :
    Matrix (Fin N) (Fin N) ℝ :=
  kc + (noise * noise) • Matrix.diagonal (fun _ => (1 : ℝ))

/-- Negative log marginal likelihood built at construction:
cost = matmul(matmul(transpose(y), K_inv), y) + log(matrix_determinant(K))
(from the expression assigned to self.cost in GaussianProcess.init). -/
noncomputable def gpCost {N : ℕ} (y : Matrix (Fin N) (Fin 1) ℝ)
    (K : Matrix (Fin N) (Fin N) ℝ) : ℝ :=
  (yᵀ * K⁻¹ * y) 0 0 + Real.log K.det

/-- Registered gradient rule for MatrixDeterminant:
grad * op.outputs[0] * transpose(matrix_inverse(op.inputs[0])),
i.e. g * det(A) * transpose(inverse(A)). -/
noncomputable def detGrad {n : ℕ} (A : Matrix (Fin n) (Fin n) ℝ) (g : ℝ) :
    Matrix (Fin n) (Fin n) ℝ :=
  (g * A.det) • A⁻¹ᵀ

/-- Posterior mean computed by predict:
y_pred = matmul(matmul(K_, K_invf), yf). -/
def predictMean {M N : ℕ} (Kst : Matrix (Fin M) (Fin N) ℝ)
    (Kinv : Matrix (Fin N) (Fin N) ℝ) (yf : Matrix (Fin N) (Fin 1) ℝ) :
    Matrix (Fin M) (Fin 1) ℝ :=
  (Kst * Kinv) * yf

/-- Posterior variance computed by predict:
var = reshape(square(amp) - reduce_sum(mul(K_K_invf, K_), 1), [-1, 1]). -/
def predictVar {M N : ℕ} (amp : ℝ) (Kst : Matrix (Fin M) (Fin N) ℝ)
    (Kinv : Matrix (Fin N) (Fin N) ℝ) : Matrix (Fin M) (Fin 1) ℝ :=
  Matrix.of fun i _ => amp * amp - ∑ j, (Kst * Kinv) i j * Kst i j

/-- Fitted state cached at the end of fit: the inverse covariance over the
full training set, and the training inputs and outputs
(self.K_invf, self.Xf, self.yf). -/
structure FittedState (N D : ℕ) where
  K_invf : Matrix (Fin N) (Fin N) ℝ
  Xf : Matrix (Fin N) (Fin D) ℝ
  yf : Matrix (Fin N) (Fin 1) ℝ

/-- The predict method: cross covariance K_ = kernel.covariance(X, Xf),
then posterior mean and variance from the cached fitted state. -/
def gpPredict {M N D : ℕ}
    (kcov2 : Matrix (Fin M) (Fin D) ℝ → Matrix (Fin N) (Fin D) ℝ →
      Matrix (Fin M) (Fin N) ℝ)
    (amp : ℝ) (fs : FittedState N D) (Xq : Matrix (Fin M) (Fin D) ℝ) :
    Matrix (Fin M) (Fin 1) ℝ × Matrix (Fin M) (Fin 1) ℝ :=
  (predictMean (kcov2 Xq fs.Xf) fs.K_invf fs.yf,
   predictVar amp (kcov2 Xq fs.Xf) fs.K_invf)

/-- Index of row k of minibatch j inside an array of N rows: the slice
X[j*batch_size : (j+1)*batch_size] taken in fit has its k-th row at
absolute position j*batch_size + k, which is within range because
j < n_batches = N / batch_size (integer division). -/
def batchIndex {N : ℕ} (bs : ℕ) (j : Fin (N / bs)) (k : Fin bs) : Fin N :=
  ⟨j.1 * bs + k.1, by
    have h1 : j.1 * bs + k.1 < (j.1 + 1) * bs := by
      have := k.2
      calc j.1 * bs + k.1 < j.1 * bs + bs := by omega
        _ = (j.1 + 1) * bs := by ring
    have h2 : (j.1 + 1) * bs ≤ N / bs * bs :=
      Nat.mul_le_mul_right bs j.2
    exact lt_of_lt_of_le h1 (le_trans h2 (Nat.div_mul_le_self N bs))⟩

/-- Minibatch j of an array of N rows: the contiguous slice
X[j*batch_size : (j+1)*batch_size], exactly batch_size rows. -/
def miniRows {α : Type*} {N : ℕ} (bs : ℕ) (X : Fin N → α)
    (j : Fin (N / bs)) : Fin bs → α :=
  fun k => X (batchIndex bs j k)

/-- The inner loop of fit for one epoch: for j in xrange(n_batches) with
n_batches = n_samples / batch_size, run one optimizer step on minibatch j
of the (already shuffled) X and y.  The optimizer step is the external
collaborator sess.run(self.train), abstracted as a function on the
trainable parameters. -/
def runBatches {α β θ : Type*} {N : ℕ} (bs : ℕ)
    (step : θ → (Fin bs → α) → (Fin bs → β) → θ)
    (X : Fin N → α) (y : Fin N → β) (p : θ) : θ :=
  (List.finRange (N / bs)).foldl
    (fun q j => step q (miniRows bs X j) (miniRows bs y j)) p

/-- One epoch of fit: draw a permutation, reassign X and y to their
jointly shuffled versions, then run the minibatch loop on them. -/
def runEpoch {α β θ : Type*} {N : ℕ} (bs : ℕ)
    (step : θ → (Fin bs → α) → (Fin bs → β) → θ)
    (σ : Equiv.Perm (Fin N)) :
    ((Fin N → α) × (Fin N → β) × θ) → ((Fin N → α) × (Fin N → β) × θ) :=
  fun s =>
    (s.1 ∘ σ, s.2.1 ∘ σ, runBatches bs step (s.1 ∘ σ) (s.2.1 ∘ σ) s.2.2)

/-- The epoch loop of fit: for i in xrange(n_epochs) run one epoch, with
the i-th random permutation drawn from the stream perms. -/
def fitRun {α β θ : Type*} {N : ℕ} (bs n_epochs : ℕ)
    (step : θ → (Fin bs → α) → (Fin bs → β) → θ)
    (perms : ℕ → Equiv.Perm (Fin N))
    (s : (Fin N → α) × (Fin N → β) × θ) :
    (Fin N → α) × (Fin N → β) × θ :=
  (List.range n_epochs).foldl (fun t i => runEpoch bs step (perms i) t) s

/-- The sequence of (X minibatch, y minibatch) pairs an epoch feeds to the
optimizer, in order. -/
def epochStepLog {α β : Type*} {N : ℕ} (bs : ℕ)
    (X : Fin N → α) (y : Fin N → β) :
    List ((Fin bs → α) × (Fin bs → β)) :=
  (List.finRange (N / bs)).map (fun j => (miniRows bs X j, miniRows bs y j))

/-- The tensorflow variables owned by the model and its kernel. -/
inductive GPVar : Type
  | length_scales : GPVar
  | noise : GPVar
  | amp : GPVar
deriving DecidableEq

/-- The var_list handed to optimizer.minimize:
var_list = [self.kernel.length_scales]; if self.train_noise then
var_list.append(self.noise). -/
def varList (train_noise : Bool) : List GPVar :=
  [GPVar.length_scales] ++ (if train_noise then [GPVar.noise] else [])

/-- Current values of the model's tensorflow variables: the kernel's
length scales, the noise parameter, and the kernel amplitude. -/
structure GPParams (D : ℕ) where
  length_scales : Fin D → ℝ
  noise : ℝ
  amp : ℝ

/-- One optimizer step: the optimizer contract is that minimize updates
exactly the variables of var_list, so the proposed update upd is applied
to the length scales always, to the noise only when train_noise is set,
and never to the amplitude. -/
def trainStep {D : ℕ} (train_noise : Bool)
    (upd : GPParams D → GPParams D) (p : GPParams D) : GPParams D :=
  { length_scales := (upd p).length_scales
    noise := if train_noise then (upd p).noise else p.noise
    amp := p.amp }

/-- The call sess.run(tf.initialize_all_variables()) at the top of fit:
all variables are reset to their construction-time initial values,
regardless of the values left by any previous fit. -/
def fitStart {D : ℕ} (_prev : GPParams D) (p₀ : GPParams D) : GPParams D :=
  p₀

/-- The end of fit: evaluate K_inv with the final variable values over the
full (shuffled) training arrays and cache it with them
(self.K_invf, self.Xf, self.yf assignments). -/
noncomputable def gpFit {N D : ℕ} {θ : Type*} (bs n_epochs : ℕ)
    (step : θ → (Fin bs → Fin D → ℝ) → (Fin bs → Fin 1 → ℝ) → θ)
    (kcov : θ → Matrix (Fin N) (Fin D) ℝ → Matrix (Fin N) (Fin N) ℝ)
    (noiseOf : θ → ℝ) (perms : ℕ → Equiv.Perm (Fin N))
    (X : Matrix (Fin N) (Fin D) ℝ) (y : Matrix (Fin N) (Fin 1) ℝ)
    (p₀ : θ) : FittedState N D :=
  let s := fitRun bs n_epochs step perms (X, y, p₀)
  ⟨(Kmat (kcov s.2.2 s.1) (noiseOf s.2.2))⁻¹, s.1, s.2.1⟩

/-- A fit call overwrites whatever fitted state the model held before. -/
noncomputable def fitUpdate {N D : ℕ} {θ : Type*} (bs n_epochs : ℕ)
    (step : θ → (Fin bs → Fin D → ℝ) → (Fin bs → Fin 1 → ℝ) → θ)
    (kcov : θ → Matrix (Fin N) (Fin D) ℝ → Matrix (Fin N) (Fin N) ℝ)
    (noiseOf : θ → ℝ) (perms : ℕ → Equiv.Perm (Fin N))
    (X : Matrix (Fin N) (Fin D) ℝ) (y : Matrix (Fin N) (Fin 1) ℝ)
    (p₀ : θ) (_prev : Option (FittedState N D)) :
    Option (FittedState N D) :=
  some (gpFit bs n_epochs step kcov noiseOf perms X y p₀)

/-- Claim C1: at model construction the covariance matrix is built as
K = kernel.covariance(X, X) + noise_variance * Identity(N) with effective
noise variance the square of the noise parameter, and the training loss is
cost = yᵀ * K⁻¹ * y + log(det(K)), for every input placeholder shape
(N, D) and every noise value. -/
theorem gp_construction_cov_and_cost (N D : ℕ)
    (kcov : Matrix (Fin N) (Fin D) ℝ → Matrix (Fin N) (Fin N) ℝ)
    (X : Matrix (Fin N) (Fin D) ℝ) (noise : ℝ)
    (y : Matrix (Fin N) (Fin 1) ℝ) :
    Kmat (kcov X) noise = kcov X + noise ^ 2 • (1 : Matrix (Fin N) (Fin N) ℝ) ∧
    gpCost y (Kmat (kcov X) noise) =
      (yᵀ * (Kmat (kcov X) noise)⁻¹ * y) 0 0 +
        Real.log (Kmat (kcov X) noise).det := by
  constructor
  · unfold Kmat
    rw [Matrix.diagonal_one, pow_two]
  · rfl

/-- Claim C2: predict returns the posterior mean A * y_train of shape
(M, 1) with A = K* * K_inv_train, K* = kernel.covariance(X_query, X_train),
and the posterior variance whose i-th entry is
amplitude^2 - sum_j(A[i,j] * K*[i,j]) reshaped to (M, 1); this is exactly
the diagonal of the predictive covariance amplitude^2 - (A * K*ᵀ)[i,i],
so cross-covariances between distinct query points are never produced. -/
theorem gp_predict_mean_var_formulas (M N D : ℕ)
    (kcov2 : Matrix (Fin M) (Fin D) ℝ → Matrix (Fin N) (Fin D) ℝ →
      Matrix (Fin M) (Fin N) ℝ)
    (amp : ℝ) (fs : FittedState N D) (Xq : Matrix (Fin M) (Fin D) ℝ) :
    (gpPredict kcov2 amp fs Xq).1 = (kcov2 Xq fs.Xf * fs.K_invf) * fs.yf ∧
    (∀ i : Fin M, (gpPredict kcov2 amp fs Xq).2 i 0 =
      amp ^ 2 - ∑ j, (kcov2 Xq fs.Xf * fs.K_invf) i j * (kcov2 Xq fs.Xf) i j) ∧
    (∀ i : Fin M, (gpPredict kcov2 amp fs Xq).2 i 0 =
      amp ^ 2 - ((kcov2 Xq fs.Xf * fs.K_invf) * (kcov2 Xq fs.Xf)ᵀ) i i) := by
  refine ⟨rfl, fun i => ?_, fun i => ?_⟩
  · simp [gpPredict, predictVar, pow_two]
  · simp [gpPredict, predictVar, pow_two, Matrix.mul_apply,
      Matrix.transpose_apply]

/-- Adding ε to the single entry (i, j) of A rewrites A as an update of
row i by the old row plus ε times the j-th standard basis vector. -/
theorem add_smul_stdBasisMatrix_eq_updateRow {n : ℕ}
    (A : Matrix (Fin n) (Fin n) ℝ) (i j : Fin n) (ε : ℝ) :
    A + ε • Matrix.stdBasisMatrix i j 1 =
      A.updateRow i (A i + ε • (Pi.single j 1 : Fin n → ℝ)) := by
  ext p q
  by_cases hp : p = i
  · subst hp
    by_cases hq : q = j
    · subst hq
      simp [Matrix.stdBasisMatrix, Pi.single_apply]
    · simp [Matrix.stdBasisMatrix, Pi.single_apply, Ne.symm hq, hq]
  · simp [Matrix.stdBasisMatrix, Matrix.updateRow_ne hp, hp, Ne.symm hp]

/-- Claim C3: the registered MatrixDeterminant gradient rule returns, for
every square matrix A whose inverse is defined and every upstream scalar
gradient g, exactly g * det(A) * transpose(inverse(A)); this is the true
gradient of the determinant: perturbing entry (i, j) of A by ε changes
det(A) by exactly ε times the (i, j) entry of the rule's output at g = 1,
and the output scales linearly in g. -/
theorem det_gradient_rule (n : ℕ) (A : Matrix (Fin n) (Fin n) ℝ) (g : ℝ)
    (h : IsUnit A.det) :
    detGrad A g = (g * A.det) • A⁻¹ᵀ ∧
    detGrad A g = g • detGrad A 1 ∧
    ∀ (i j : Fin n) (ε : ℝ),
      (A + ε • Matrix.stdBasisMatrix i j 1).det =
        A.det + ε * detGrad A 1 i j := by
  refine ⟨rfl, ?_, fun i j ε => ?_⟩
  · unfold detGrad
    rw [one_mul, smul_smul]
  · have hent : detGrad A 1 i j = A.adjugate j i := by
      unfold detGrad
      rw [one_mul, Matrix.smul_apply, Matrix.transpose_apply, Matrix.inv_def,
        Matrix.smul_apply, smul_eq_mul, smul_eq_mul, ← mul_assoc,
        Ring.mul_inverse_cancel _ h, one_mul]
    rw [hent, add_smul_stdBasisMatrix_eq_updateRow,
      Matrix.det_updateRow_add, Matrix.det_updateRow_smul,
      Matrix.updateRow_eq_self, Matrix.adjugate_apply]

/-- Witness for C3 at the concrete matrix !![2] and upstream gradient 3. -/
theorem det_gradient_rule_witness :
    IsUnit (!![(2 : ℝ)]).det ∧
    (detGrad !![(2 : ℝ)] 3 = (3 * (!![(2 : ℝ)]).det) • (!![(2 : ℝ)])⁻¹ᵀ ∧
     detGrad !![(2 : ℝ)] 3 = (3 : ℝ) • detGrad !![(2 : ℝ)] 1 ∧
     ∀ (i j : Fin 1) (ε : ℝ),
       (!![(2 : ℝ)] + ε • Matrix.stdBasisMatrix i j 1).det =
         (!![(2 : ℝ)]).det + ε * detGrad !![(2 : ℝ)] 1 i j) := by
  have h : IsUnit (!![(2 : ℝ)]).det := by
    rw [Matrix.det_fin_one]
    norm_num
  exact ⟨h, det_gradient_rule 1 !![(2 : ℝ)] 3 h⟩

/-- A property preserved by every step of a left fold is preserved by the
whole fold. -/
theorem foldl_keep {γ ι : Type*} (P : γ → Prop) (g : γ → ι → γ)
    (h : ∀ c i, P c → P (g c i)) :
    ∀ (l : List ι) (c : γ), P c → P (l.foldl g c) := by
  intro l
  induction l with
  | nil => intro c hc; exact hc
  | cons a t ih => intro c hc; exact ih (g c a) (h c a hc)

/-- Counting the steps of a left fold. -/
theorem foldl_count {ι : Type*} :
    ∀ (l : List ι) (c : ℕ), l.foldl (fun a _ => a + 1) c = c + l.length := by
  intro l
  induction l with
  | nil => intro c; simp
  | cons a t ih => intro c; simp [ih]; omega

/-- Claim C4: fit runs exactly n_epochs epochs with no early stopping, and
within each epoch performs exactly floor(N / batch_size) optimizer steps
on contiguous minibatches of exactly batch_size rows each, the minibatch j
covering rows j*batch_size .. (j+1)*batch_size - 1 of that epoch's
shuffled order, so the trailing N mod batch_size rows are excluded from
training that epoch. -/
theorem fit_epoch_batch_schedule {α β θ : Type*} (N bs n_epochs : ℕ)
    (step : θ → (Fin bs → α) → (Fin bs → β) → θ)
    (perms : ℕ → Equiv.Perm (Fin N)) (σ : Equiv.Perm (Fin N))
    (X : Fin N → α) (y : Fin N → β) (p : θ)
    (s : (Fin N → α) × (Fin N → β) × θ) :
    (runEpoch bs step σ (X, y, p) =
      (X ∘ σ, y ∘ σ,
        (epochStepLog bs (X ∘ σ) (y ∘ σ)).foldl
          (fun q m => step q m.1 m.2) p)) ∧
    ((epochStepLog bs (X ∘ σ) (y ∘ σ)).length = N / bs) ∧
    (∀ (j : Fin (N / bs)) (k : Fin bs),
      miniRows bs X j k = X (batchIndex bs j k) ∧
      (batchIndex (N := N) bs j k).1 = j.1 * bs + k.1) ∧
    (N / bs * bs + N % bs = N ∧
      ∀ (j : Fin (N / bs)) (k : Fin bs),
        (batchIndex (N := N) bs j k).1 < N / bs * bs) ∧
    (fitRun bs 0 step perms s = s ∧
      ∀ n, fitRun bs (n + 1) step perms s =
        runEpoch bs step (perms n) (fitRun bs n step perms s)) ∧
    ((fitRun bs n_epochs (fun (c : ℕ) _ _ => c + 1) perms (X, y, 0)).2.2 =
      n_epochs * (N / bs)) := by
  refine ⟨?_, ?_, fun j k => ⟨rfl, rfl⟩, ⟨?_, fun j k => ?_⟩, ⟨rfl, fun n => ?_⟩, ?_⟩
  · simp [runEpoch, runBatches, epochStepLog, List.foldl_map]
  · simp [epochStepLog]
  · have h1 := Nat.div_add_mod N bs
    have h2 : N / bs * bs = bs * (N / bs) := Nat.mul_comm _ _
    omega
  · have h1 : j.1 * bs + k.1 < (j.1 + 1) * bs := by
      have := k.2
      calc j.1 * bs + k.1 < j.1 * bs + bs := by omega
        _ = (j.1 + 1) * bs := by ring
    exact lt_of_lt_of_le h1 (Nat.mul_le_mul_right bs j.2)
  · unfold fitRun
    rw [List.range_succ, List.foldl_append, List.foldl_cons, List.foldl_nil]
  · have hepoch : ∀ (t : (Fin N → α) × (Fin N → β) × ℕ) (i : ℕ),
        (runEpoch bs (fun (c : ℕ) _ _ => c + 1) (perms i) t).2.2 =
          t.2.2 + N / bs := by
      intro t i
      simp only [runEpoch, runBatches]
      rw [foldl_count]
      simp
    have hmain : ∀ (n : ℕ) (t : (Fin N → α) × (Fin N → β) × ℕ),
        (fitRun bs n (fun (c : ℕ) _ _ => c + 1) perms t).2.2 =
          t.2.2 + n * (N / bs) := by
      intro n
      induction n with
      | zero => intro t; simp [fitRun]
      | succ m ih =>
        intro t
        have hrec : fitRun bs (m + 1) (fun (c : ℕ) _ _ => c + 1) perms t =
            runEpoch bs (fun (c : ℕ) _ _ => c + 1) (perms m)
              (fitRun bs m (fun (c : ℕ) _ _ => c + 1) perms t) := by
          unfold fitRun
          rw [List.range_succ, List.foldl_append, List.foldl_cons,
            List.foldl_nil]
        rw [hrec, hepoch, ih]
        ring
    have := hmain n_epochs (X, y, 0)
    simpa using this

/-- Claim C5: in every epoch of fit, X and y are shuffled jointly by a
single random permutation applied identically to both: the epoch stores
X ∘ σ and y ∘ σ, every row pairing of the shuffled arrays already held
before shuffling (at index σ k), and the multiset of (X row, y row) pairs
is unchanged. -/
theorem fit_shuffle_joint_permutation {α β θ : Type*} (N bs : ℕ)
    (step : θ → (Fin bs → α) → (Fin bs → β) → θ)
    (σ : Equiv.Perm (Fin N)) (X : Fin N → α) (y : Fin N → β) (p : θ) :
    ((runEpoch bs step σ (X, y, p)).1 = X ∘ σ ∧
     (runEpoch bs step σ (X, y, p)).2.1 = y ∘ σ) ∧
    (∀ k : Fin N, ((X ∘ σ) k, (y ∘ σ) k) = (X (σ k), y (σ k))) ∧
    (Multiset.map (fun k => ((X ∘ σ) k, (y ∘ σ) k)) Finset.univ.val =
      Multiset.map (fun k => (X k, y k)) Finset.univ.val) := by
  refine ⟨⟨rfl, rfl⟩, fun k => rfl, ?_⟩
  have huniv : Multiset.map (fun k => σ k) Finset.univ.val =
      Finset.univ.val := by
    have := Finset.map_univ_equiv σ
    calc Multiset.map (fun k => σ k) Finset.univ.val
        = (Finset.univ.map σ.toEmbedding).val := rfl
      _ = Finset.univ.val := by rw [this]
  calc Multiset.map (fun k => ((X ∘ σ) k, (y ∘ σ) k)) Finset.univ.val
      = Multiset.map ((fun k => (X k, y k)) ∘ fun k => σ k)
          Finset.univ.val := rfl
    _ = Multiset.map (fun k => (X k, y k))
          (Multiset.map (fun k => σ k) Finset.univ.val) := by
        rw [Multiset.map_map]
    _ = Multiset.map (fun k => (X k, y k)) Finset.univ.val := by
        rw [huniv]

/-- Any per-parameter value that every optimizer step preserves is
preserved across the whole of fitRun. -/
theorem fitRun_param_invariant {α β θ γ : Type*} {N : ℕ} (v : θ → γ)
    (bs n_epochs : ℕ) (step : θ → (Fin bs → α) → (Fin bs → β) → θ)
    (perms : ℕ → Equiv.Perm (Fin N))
    (s : (Fin N → α) × (Fin N → β) × θ)
    (h : ∀ p mX mY, v (step p mX mY) = v p) :
    v ((fitRun bs n_epochs step perms s).2.2) = v s.2.2 := by
  have hbatch : ∀ (X : Fin N → α) (y : Fin N → β) (p : θ),
      v (runBatches bs step X y p) = v p := by
    intro X y p
    refine foldl_keep (fun q => v q = v p)
      (fun q j => step q (miniRows bs X j) (miniRows bs y j)) ?_
      (List.finRange (N / bs)) p rfl
    intro c j hc
    show v (step c (miniRows bs X j) (miniRows bs y j)) = v p
    rw [h]
    exact hc
  refine foldl_keep (fun t => v t.2.2 = v s.2.2)
    (fun t i => runEpoch bs step (perms i) t) ?_ (List.range n_epochs) s rfl
  intro t i ht
  show v ((runEpoch bs step (perms i) t).2.2) = v s.2.2
  simp only [runEpoch]
  rw [hbatch]
  exact ht

/-- Claim C7: the parameter set updated by the optimizer is exactly the
kernel's length scales plus the noise parameter if and only if the
train_noise flag is set; the amplitude is never trainable, so every fit
leaves the kernel amplitude unchanged, while predict still reads the
amplitude in its variance formula. -/
theorem trainable_set_excludes_amp (D : ℕ) (tn : Bool) :
    (GPVar.length_scales ∈ varList tn) ∧
    (GPVar.noise ∈ varList tn ↔ tn = true) ∧
    (GPVar.amp ∉ varList tn) ∧
    (∀ (upd : GPParams D → GPParams D) (p : GPParams D),
      (trainStep tn upd p).length_scales = (upd p).length_scales ∧
      (trainStep tn upd p).noise =
        (if tn then (upd p).noise else p.noise) ∧
      (trainStep tn upd p).amp = p.amp) ∧
    (∀ (N bs n_epochs : ℕ)
      (upd : (Fin bs → Fin D → ℝ) → (Fin bs → Fin 1 → ℝ) →
        GPParams D → GPParams D)
      (perms : ℕ → Equiv.Perm (Fin N))
      (X : Fin N → Fin D → ℝ) (y : Fin N → Fin 1 → ℝ) (p₀ : GPParams D),
      ((fitRun bs n_epochs (fun p mX mY => trainStep tn (upd mX mY) p)
          perms (X, y, p₀)).2.2).amp = p₀.amp) ∧
    (∀ (M N : ℕ) (amp : ℝ) (Kst : Matrix (Fin M) (Fin N) ℝ)
      (Kinv : Matrix (Fin N) (Fin N) ℝ) (i : Fin M),
      predictVar amp Kst Kinv i 0 =
        amp * amp - ∑ j, (Kst * Kinv) i j * Kst i j) := by
  refine ⟨?_, ?_, ?_, fun upd p => ⟨rfl, rfl, rfl⟩, ?_, fun M N a K Ki i => rfl⟩
  · cases tn <;> simp [varList]
  · cases tn <;> simp [varList]
  · cases tn <;> simp [varList]
  · intro N bs n_epochs upd perms X y p₀
    exact fitRun_param_invariant GPParams.amp bs n_epochs _ perms (X, y, p₀)
      (fun p mX mY => rfl)

/-- Claim C10: with train_noise = False, after any sequence of fit calls
the noise parameter equals its construction value: each fit starts by
resetting all variables to their initial values, and the optimizer never
touches the noise since it is outside var_list. -/
theorem noise_constant_when_not_trained (N D : ℕ) (bs n_epochs : ℕ)
    (upd : (Fin bs → Fin D → ℝ) → (Fin bs → Fin 1 → ℝ) →
      GPParams D → GPParams D)
    (p₀ : GPParams D)
    (calls : List ((ℕ → Equiv.Perm (Fin N)) ×
      (Fin N → Fin D → ℝ) × (Fin N → Fin 1 → ℝ))) :
    (∀ prev : GPParams D, fitStart prev p₀ = p₀) ∧
    (∀ (perms : ℕ → Equiv.Perm (Fin N)) (X : Fin N → Fin D → ℝ)
      (y : Fin N → Fin 1 → ℝ),
      ((fitRun bs n_epochs (fun p mX mY => trainStep false (upd mX mY) p)
          perms (X, y, p₀)).2.2).noise = p₀.noise) ∧
    ((calls.foldl
        (fun cur c =>
          (fitRun bs n_epochs (fun p mX mY => trainStep false (upd mX mY) p)
            c.1 (c.2.1, c.2.2, fitStart cur p₀)).2.2)
        p₀).noise = p₀.noise) := by
  have hone : ∀ (perms : ℕ → Equiv.Perm (Fin N)) (X : Fin N → Fin D → ℝ)
      (y : Fin N → Fin 1 → ℝ) (q : GPParams D),
      ((fitRun bs n_epochs (fun p mX mY => trainStep false (upd mX mY) p)
          perms (X, y, q)).2.2).noise = q.noise := by
    intro perms X y q
    exact fitRun_param_invariant GPParams.noise bs n_epochs _ perms (X, y, q)
      (fun p mX mY => rfl)
  refine ⟨fun prev => rfl, fun perms X y => hone perms X y p₀, ?_⟩
  refine foldl_keep (fun cur => cur.noise = p₀.noise)
    (fun cur c =>
      (fitRun bs n_epochs (fun p mX mY => trainStep false (upd mX mY) p)
        c.1 (c.2.1, c.2.2, fitStart cur p₀)).2.2) ?_ calls p₀ rfl
  intro cur c hc
  show ((fitRun bs n_epochs (fun p mX mY => trainStep false (upd mX mY) p)
      c.1 (c.2.1, c.2.2, fitStart cur p₀)).2.2).noise = p₀.noise
  rw [hone]
  rfl

/-- Peeling one epoch off the epoch loop. -/
theorem fitRun_succ {α β θ : Type*} {N : ℕ} (bs n : ℕ)
    (step : θ → (Fin bs → α) → (Fin bs → β) → θ)
    (perms : ℕ → Equiv.Perm (Fin N))
    (s : (Fin N → α) × (Fin N → β) × θ) :
    fitRun bs (n + 1) step perms s =
      runEpoch bs step (perms n) (fitRun bs n step perms s) := by
  unfold fitRun
  rw [List.range_succ, List.foldl_append, List.foldl_cons, List.foldl_nil]

/-- The X and y held at the end of fit are the original rows jointly
rearranged by the composition of the epoch permutations. -/
theorem fitRun_data_perm {α β θ : Type*} {N : ℕ} (bs n : ℕ)
    (step : θ → (Fin bs → α) → (Fin bs → β) → θ)
    (perms : ℕ → Equiv.Perm (Fin N))
    (X : Fin N → α) (y : Fin N → β) (p : θ) :
    ∃ σ : Equiv.Perm (Fin N),
      (fitRun bs n step perms (X, y, p)).1 = (fun i => X (σ i)) ∧
      (fitRun bs n step perms (X, y, p)).2.1 = (fun i => y (σ i)) := by
  induction n with
  | zero =>
    refine ⟨Equiv.refl _, ?_, ?_⟩ <;> simp [fitRun]
  | succ m ih =>
    obtain ⟨σ, h1, h2⟩ := ih
    refine ⟨(perms m).trans σ, ?_, ?_⟩ <;>
      rw [fitRun_succ] <;>
      simp only [runEpoch, h1, h2] <;>
      funext i <;>
      simp [Equiv.trans_apply]

/-- Counterexample to C6 as stated: the cached Xf is the last epoch's
shuffled order of the training rows, not an entry-for-entry copy of the X
passed to fit.  With N = 2 training rows 0 and 1 and the epoch permutation
swapping them, the cached Xf differs from X. -/
theorem fitted_state_not_literal_copy :
    ¬ ((gpFit 2 1 (fun (p : Unit) _ _ => p)
          (fun _ _ => (1 : Matrix (Fin 2) (Fin 2) ℝ)) (fun _ => (0 : ℝ))
          (fun _ => Equiv.swap (0 : Fin 2) 1)
          (Matrix.of fun i _ => (i.1 : ℝ) : Matrix (Fin 2) (Fin 1) ℝ)
          (Matrix.of fun _ _ => (0 : ℝ)) ()).Xf
        = (Matrix.of fun i _ => (i.1 : ℝ) : Matrix (Fin 2) (Fin 1) ℝ)) := by
  intro hEq
  have hXf : (gpFit 2 1 (fun (p : Unit) _ _ => p)
      (fun _ _ => (1 : Matrix (Fin 2) (Fin 2) ℝ)) (fun _ => (0 : ℝ))
      (fun _ => Equiv.swap (0 : Fin 2) 1)
      (Matrix.of fun i _ => (i.1 : ℝ) : Matrix (Fin 2) (Fin 1) ℝ)
      (Matrix.of fun _ _ => (0 : ℝ)) ()).Xf 0 0 = (1 : ℝ) := by
    simp [gpFit, fitRun, runEpoch, List.range_succ, Equiv.swap_apply_left]
  rw [hEq] at hXf
  simp at hXf

/-- Claim C6 (amended): after the final epoch of fit the model caches the
inverse of K evaluated with the final parameters over the full N-row
training set, together with the full X and y as jointly rearranged by the
epochs' shuffles (a single permutation applied to both); this triple plus
the kernel is all predict consumes, and a subsequent fit call replaces the
triple wholesale, ignoring the previous fitted state. -/
theorem fit_caches_full_state_perm (N D M : ℕ) {θ : Type*} (bs n_epochs : ℕ)
    (step : θ → (Fin bs → Fin D → ℝ) → (Fin bs → Fin 1 → ℝ) → θ)
    (kcov : θ → Matrix (Fin N) (Fin D) ℝ → Matrix (Fin N) (Fin N) ℝ)
    (noiseOf : θ → ℝ) (perms : ℕ → Equiv.Perm (Fin N))
    (X : Matrix (Fin N) (Fin D) ℝ) (y : Matrix (Fin N) (Fin 1) ℝ)
    (p₀ : θ)
    (kcov2 : Matrix (Fin M) (Fin D) ℝ → Matrix (Fin N) (Fin D) ℝ →
      Matrix (Fin M) (Fin N) ℝ)
    (amp : ℝ) (prev : Option (FittedState N D)) :
    (gpFit bs n_epochs step kcov noiseOf perms X y p₀ =
      ⟨(Kmat (kcov (fitRun bs n_epochs step perms (X, y, p₀)).2.2
            (fitRun bs n_epochs step perms (X, y, p₀)).1)
          (noiseOf (fitRun bs n_epochs step perms (X, y, p₀)).2.2))⁻¹,
        (fitRun bs n_epochs step perms (X, y, p₀)).1,
        (fitRun bs n_epochs step perms (X, y, p₀)).2.1⟩) ∧
    (∃ σ : Equiv.Perm (Fin N),
      (gpFit bs n_epochs step kcov noiseOf perms X y p₀).Xf =
        (fun i => X (σ i)) ∧
      (gpFit bs n_epochs step kcov noiseOf perms X y p₀).yf =
        (fun i => y (σ i))) ∧
    (fitUpdate bs n_epochs step kcov noiseOf perms X y p₀ prev =
      some (gpFit bs n_epochs step kcov noiseOf perms X y p₀)) ∧
    (∀ (fs : FittedState N D) (Xq : Matrix (Fin M) (Fin D) ℝ),
      gpPredict kcov2 amp fs Xq =
        (predictMean (kcov2 Xq fs.Xf) fs.K_invf fs.yf,
         predictVar amp (kcov2 Xq fs.Xf) fs.K_invf)) := by
  refine ⟨rfl, ?_, rfl, fun fs Xq => rfl⟩
  obtain ⟨σ, h1, h2⟩ := fitRun_data_perm bs n_epochs step perms X y p₀
  exact ⟨σ, h1, h2⟩

/-- Dot product over a sum index splits into the two blocks. -/
theorem dotProduct_sumElim {N : ℕ} (u p : Fin 1 → ℝ) (v q : Fin N → ℝ) :
    Matrix.dotProduct (Sum.elim u v) (Sum.elim p q) =
      Matrix.dotProduct u p + Matrix.dotProduct v q := by
  simp [Matrix.dotProduct, Fintype.sum_sum_type]

/-- Schur-complement style bound: if the matrix obtained by bordering Kt
with diagonal entry a and cross vector b is positive semidefinite, and
K = Kt + ν I with ν ≥ 0 is invertible, then b^T K^-1 b ≤ a. -/
theorem bordered_psd_schur_bound {N : ℕ} (a ν : ℝ) (b : Fin N → ℝ)
    (Kt K : Matrix (Fin N) (Fin N) ℝ)
    (hK1 : K = Kt + ν • (1 : Matrix (Fin N) (Fin N) ℝ)) (hν : 0 ≤ ν)
    (hdet : IsUnit K.det)
    (hB : (Matrix.fromBlocks !![a]
        (Matrix.of fun _ j => b j) (Matrix.of fun j _ => b j)
        Kt).PosSemidef) :
    0 ≤ a - Matrix.dotProduct b (K⁻¹ *ᵥ b) := by
  have hKw : K *ᵥ (K⁻¹ *ᵥ b) = b := by
    rw [Matrix.mulVec_mulVec, Matrix.mul_nonsing_inv _ hdet,
      Matrix.one_mulVec]
  have hquad : (0 : ℝ) ≤
      a - 2 * Matrix.dotProduct b (K⁻¹ *ᵥ b) +
        Matrix.dotProduct (K⁻¹ *ᵥ b) (Kt *ᵥ (K⁻¹ *ᵥ b)) := by
    have hq := hB.2 (Sum.elim (fun _ : Fin 1 => (1 : ℝ)) (-(K⁻¹ *ᵥ b)))
    have hsx : star (Sum.elim (fun _ : Fin 1 => (1 : ℝ)) (-(K⁻¹ *ᵥ b))) =
        Sum.elim (fun _ : Fin 1 => (1 : ℝ)) (-(K⁻¹ *ᵥ b)) := by
      funext z
      cases z <;> simp
    rw [hsx, Matrix.fromBlocks_mulVec, dotProduct_sumElim] at hq
    simp only [Sum.elim_comp_inl, Sum.elim_comp_inr] at hq
    have hru : (Matrix.of fun j _ => b j : Matrix (Fin N) (Fin 1) ℝ) *ᵥ
        (fun _ : Fin 1 => (1 : ℝ)) = b := by
      funext l
      simp [Matrix.mulVec, Matrix.dotProduct]
    have e1 : Matrix.dotProduct (fun _ : Fin 1 => (1 : ℝ))
        ((!![a] : Matrix (Fin 1) (Fin 1) ℝ) *ᵥ (fun _ : Fin 1 => (1 : ℝ)) +
          (Matrix.of fun _ j => b j : Matrix (Fin 1) (Fin N) ℝ) *ᵥ
            (-(K⁻¹ *ᵥ b))) =
        a - Matrix.dotProduct b (K⁻¹ *ᵥ b) := by
      have hrow : (Matrix.of fun _ j => b j : Matrix (Fin 1) (Fin N) ℝ) *ᵥ
          (-(K⁻¹ *ᵥ b)) =
          fun _ : Fin 1 => -(Matrix.dotProduct b (K⁻¹ *ᵥ b)) := by
        funext z
        simp [Matrix.mulVec, Matrix.dotProduct, mul_neg]
      rw [hrow]
      simp [Matrix.dotProduct, Matrix.mulVec, Fin.sum_univ_one]
      ring
    have e2 : Matrix.dotProduct (-(K⁻¹ *ᵥ b))
        ((Matrix.of fun j _ => b j : Matrix (Fin N) (Fin 1) ℝ) *ᵥ
            (fun _ : Fin 1 => (1 : ℝ)) +
          Kt *ᵥ (-(K⁻¹ *ᵥ b))) =
        -(Matrix.dotProduct b (K⁻¹ *ᵥ b)) +
          Matrix.dotProduct (K⁻¹ *ᵥ b) (Kt *ᵥ (K⁻¹ *ᵥ b)) := by
      rw [hru, Matrix.mulVec_neg, Matrix.dotProduct_add,
        Matrix.neg_dotProduct, Matrix.neg_dotProduct, Matrix.dotProduct_neg,
        neg_neg, Matrix.dotProduct_comm (K⁻¹ *ᵥ b) b]
    rw [e1, e2] at hq
    linarith
  have hKtw : Matrix.dotProduct (K⁻¹ *ᵥ b) (Kt *ᵥ (K⁻¹ *ᵥ b)) =
      Matrix.dotProduct b (K⁻¹ *ᵥ b) -
        ν * Matrix.dotProduct (K⁻¹ *ᵥ b) (K⁻¹ *ᵥ b) := by
    have hKt : Kt *ᵥ (K⁻¹ *ᵥ b) = b - ν • (K⁻¹ *ᵥ b) := by
      have hKt1 : Kt = K - ν • (1 : Matrix (Fin N) (Fin N) ℝ) := by
        rw [hK1]
        abel
      rw [hKt1, Matrix.sub_mulVec, hKw, Matrix.smul_mulVec_assoc,
        Matrix.one_mulVec]
    rw [hKt, Matrix.dotProduct_sub, Matrix.dotProduct_smul, smul_eq_mul,
      Matrix.dotProduct_comm (K⁻¹ *ᵥ b) b]
  have hwnn : (0 : ℝ) ≤ Matrix.dotProduct (K⁻¹ *ᵥ b) (K⁻¹ *ᵥ b) :=
    Finset.sum_nonneg fun j _ => mul_self_nonneg _
  nlinarith [hquad, hKtw, mul_nonneg hν hwnn]

/-- Claim C9: under a valid model, namely a training covariance matrix
K = Kt + noise^2 * I that is positive definite, where the kernel Gram
matrix bordered by the query point (diagonal entry amp^2, cross
covariances the i-th row of K*) is positive semidefinite as produced by a
positive-definite kernel of amplitude amp, the predictive variance
amp^2 - sum_j((K* K^-1)[i,j] * K*[i,j]) is non-negative at every query
point i, in exact arithmetic and without any clamping. -/
theorem predict_variance_nonneg (M N : ℕ) (amp noise : ℝ)
    (Kt : Matrix (Fin N) (Fin N) ℝ) (Kst : Matrix (Fin M) (Fin N) ℝ)
    (i : Fin M)
    (hB : (Matrix.fromBlocks !![amp ^ 2]
        (Matrix.of fun _ j => Kst i j) (Matrix.of fun j _ => Kst i j)
        Kt).PosSemidef)
    (hK : (Kmat Kt noise).PosDef) :
    0 ≤ predictVar amp Kst (Kmat Kt noise)⁻¹ i 0 := by
  have hdet : IsUnit (Kmat Kt noise).det :=
    isUnit_iff_ne_zero.mpr (ne_of_gt hK.det_pos)
  have hK1 : Kmat Kt noise =
      Kt + (noise * noise) • (1 : Matrix (Fin N) (Fin N) ℝ) := by
    unfold Kmat
    rw [Matrix.diagonal_one]
  have hmain := bordered_psd_schur_bound (amp ^ 2) (noise * noise)
    (fun j => Kst i j) Kt (Kmat Kt noise) hK1 (mul_self_nonneg noise)
    hdet hB
  have hsum : (∑ j, (Kst * (Kmat Kt noise)⁻¹) i j * Kst i j) =
      Matrix.dotProduct (fun j => Kst i j)
        ((Kmat Kt noise)⁻¹ *ᵥ (fun j => Kst i j)) := by
    have hrow : ∀ j, (Kst * (Kmat Kt noise)⁻¹) i j =
        Matrix.vecMul (fun j => Kst i j) (Kmat Kt noise)⁻¹ j := by
      intro j
      simp [Matrix.mul_apply, Matrix.vecMul, Matrix.dotProduct]
    calc (∑ j, (Kst * (Kmat Kt noise)⁻¹) i j * Kst i j)
        = ∑ j, Matrix.vecMul (fun j => Kst i j) (Kmat Kt noise)⁻¹ j *
            Kst i j := by
          exact Finset.sum_congr rfl fun j _ => by rw [hrow j]
      _ = Matrix.dotProduct
            (Matrix.vecMul (fun j => Kst i j) (Kmat Kt noise)⁻¹)
            (fun j => Kst i j) := rfl
      _ = Matrix.dotProduct (fun j => Kst i j)
            ((Kmat Kt noise)⁻¹ *ᵥ (fun j => Kst i j)) :=
          (Matrix.dotProduct_mulVec _ _ _).symm
  have hvar : predictVar amp Kst (Kmat Kt noise)⁻¹ i 0 =
      amp * amp - Matrix.dotProduct (fun j => Kst i j)
        ((Kmat Kt noise)⁻¹ *ᵥ (fun j => Kst i j)) := by
    show amp * amp - (∑ j, (Kst * (Kmat Kt noise)⁻¹) i j * Kst i j) =
      amp * amp - Matrix.dotProduct (fun j => Kst i j)
        ((Kmat Kt noise)⁻¹ *ᵥ (fun j => Kst i j))
    rw [hsum]
  rw [hvar]
  nlinarith [hmain]

/-- Witness for C9 at the concrete one-point model with amplitude 1,
kernel Gram matrix !![1], cross covariance !![1] and noise 0. -/
theorem predict_variance_nonneg_witness :
    (Matrix.fromBlocks !![(1 : ℝ) ^ 2]
        (Matrix.of fun _ j => (!![(1 : ℝ)] : Matrix (Fin 1) (Fin 1) ℝ) 0 j)
        (Matrix.of fun j _ => (!![(1 : ℝ)] : Matrix (Fin 1) (Fin 1) ℝ) 0 j)
        !![(1 : ℝ)]).PosSemidef ∧
    (Kmat !![(1 : ℝ)] 0).PosDef ∧
    0 ≤ predictVar 1 !![(1 : ℝ)] (Kmat !![(1 : ℝ)] 0)⁻¹ 0 0 := by
  have hB : (Matrix.fromBlocks !![(1 : ℝ) ^ 2]
      (Matrix.of fun _ j => (!![(1 : ℝ)] : Matrix (Fin 1) (Fin 1) ℝ) 0 j)
      (Matrix.of fun j _ => (!![(1 : ℝ)] : Matrix (Fin 1) (Fin 1) ℝ) 0 j)
      !![(1 : ℝ)]).PosSemidef := by
    constructor
    · ext z w
      rcases z with z | z <;> rcases w with w | w <;>
        simp [Matrix.conjTranspose_apply, Matrix.fromBlocks]
    · intro x
      have hsx : star x = x := by
        funext z
        simp
      rw [hsx]
      have h1 : Matrix.dotProduct x
          ((Matrix.fromBlocks !![(1 : ℝ) ^ 2]
            (Matrix.of fun _ j => (!![(1 : ℝ)] : Matrix (Fin 1) (Fin 1) ℝ) 0 j)
            (Matrix.of fun j _ => (!![(1 : ℝ)] : Matrix (Fin 1) (Fin 1) ℝ) 0 j)
            !![(1 : ℝ)]) *ᵥ x) =
          (x (Sum.inl 0) + x (Sum.inr 0)) ^ 2 := by
        simp [Matrix.dotProduct, Matrix.mulVec, Fintype.sum_sum_type,
          Matrix.fromBlocks, Fin.sum_univ_one]
        ring
      rw [h1]
      exact sq_nonneg _
  have hKeq : Kmat !![(1 : ℝ)] 0 = !![(1 : ℝ)] := by
    unfold Kmat
    rw [Matrix.diagonal_one]
    norm_num
  have hK : (Kmat !![(1 : ℝ)] 0).PosDef := by
    rw [hKeq]
    constructor
    · ext z w
      fin_cases z
      fin_cases w
      simp [Matrix.conjTranspose_apply]
    · intro x hx
      have hx0 : x 0 ≠ 0 := by
        intro h0
        apply hx
        funext z
        fin_cases z
        exact h0
      have h1 : Matrix.dotProduct (star x) (!![(1 : ℝ)] *ᵥ x) =
          x 0 * x 0 := by
        simp [Matrix.dotProduct, Matrix.mulVec, Fin.sum_univ_one]
      rw [h1]
      exact mul_self_pos.mpr hx0
  exact ⟨hB, hK,
    predict_variance_nonneg 1 1 1 0 !![(1 : ℝ)] !![(1 : ℝ)] 0 hB hK⟩

end GaussProc
